import Mathlib

/-!
Shallow embedding of the batch-job orchestration core of `adwords_client/client.py`
(class `AdWords`): the job ledger reader `get_batchjobs`, the reconcile step
`_update_jobs_status`, the polling loop `wait_jobs`, the batch dispatcher
`_setup_operations` / `_execute_operations`, and the storage helpers
`get_min_value`, `count_table`, `_iter_floats`, `_get_dict_min_value`,
`_make_entry` / `insert`.

Python dicts are modelled as insertion-ordered association lists; dict
assignment updates an existing key in place and appends a fresh key at the end.
External collaborators (the remote batch service reached through
`bjs.prepare_job`, `bjs.helper.add_operation`, `bjs.helper.upload_operations`,
`bjs.get_multiple_status`, `time.sleep`) are modelled as emitted events or as
oracle parameters, so a run of the core produces an explicit trace of its calls.
-/

namespace AdwordsClient

/-- Insertion-ordered association list lookup (Python `d[k]` that may raise `KeyError`). -/
def alistGet? {α β : Type} [DecidableEq α] : List (α × β) → α → Option β
  | [], _ => none
  | (k', v) :: rest, k => if k = k' then some v else alistGet? rest k

/-- Python `d[k] = v`: update the existing key in place, else append at the end. -/
def alistSet {α β : Type} [DecidableEq α] : List (α × β) → α → β → List (α × β)
  | [], k, v => [(k, v)]
  | (k', v') :: rest, k, v => if k = k' then (k, v) :: rest else (k', v') :: alistSet rest k v

/-- Python `del d[k]`: remove the key (no-op when absent; the code only deletes present keys). -/
def alistErase {α β : Type} [DecidableEq α] : List (α × β) → α → List (α × β)
  | [], _ => []
  | (k', v') :: rest, k => if k = k' then rest else (k', v') :: alistErase rest k

/-- Python `d.setdefault(k, dflt)` followed by a mutation `f` of the value stored at `k`. -/
def alistModify {α β : Type} [DecidableEq α] : List (α × β) → α → β → (β → β) → List (α × β)
  | [], k, dflt, f => [(k, f dflt)]
  | (k', v) :: rest, k, dflt, f =>
    if k = k' then (k, f v) :: rest else (k', v) :: alistModify rest k dflt f

/-- A batch-job status string as stored in the ledger (`data['status']`). -/
abbrev Status := String

/-- `data['status'] != 'DONE' and data['status'] != 'CANCELED'` negated: terminal statuses. -/
def isTerminal (s : Status) : Bool := s == "DONE" || s == "CANCELED"

/-- The parsed `operation` JSON of one ledger row, restricted to the fields the
tracker reads: `batchjob_id` and `status`. -/
structure LedgerData where
  batchjob_id : Nat
  status : Status
deriving DecidableEq, Repr

/-- One row of the batch-operation log table: `id` (autoincrement row id),
`client_id`, and the parsed `operation` payload. -/
structure LedgerRow where
  id : Nat
  client_id : Int
  data : LedgerData
deriving DecidableEq, Repr

/-- The value stored in the `pending` map: `{'id': row_id, 'data': data}`. -/
structure TableEntry where
  id : Nat
  data : LedgerData
deriving DecidableEq, Repr

/-- `pending` map: client id to (batchjob id to table entry), insertion ordered. -/
abbrev PendingMap := List (Int × List (Nat × TableEntry))

/-- One job status as returned by the remote `get_multiple_status` query:
`id`, `status`, optional `downloadUrl` and optional `progressStats` pairs. -/
structure DirtyJob where
  id : Nat
  status : Status
  downloadUrl : Option String
  progressStats : Option (List (String × Int))
deriving DecidableEq, Repr

/-- `dirty` map: client id to the list of freshly polled job statuses. -/
abbrev DirtyMap := List (Int × List DirtyJob)

/-- The normalized update record `formatted_dirty_job` built by `_update_jobs_status`:
status, result url (empty when no `downloadUrl`), client id, batchjob id, and the
lower-cased flattened progress counters merged in by `dict.update`. -/
structure FormattedJob where
  status : Status
  result_url : String
  client_id : Int
  batchjob_id : Nat
  progress : List (String × Int)
deriving DecidableEq, Repr

/-- `done` map: client id to (batchjob id to formatted job). -/
abbrev DoneMap := List (Int × List (Nat × FormattedJob))

/-- The job collection `{'pending': ..., 'dirty': ..., 'done': ...}`. -/
structure Jobs where
  pending : PendingMap
  dirty : DirtyMap
  done : DoneMap
deriving DecidableEq, Repr

/-- One element of the `updates` list: `{'id': row_id, 'operation': json.dumps(...)}`,
with the serialized payload kept structured. -/
structure UpdateRow where
  id : Nat
  operation : FormattedJob
deriving DecidableEq, Repr

/-- `AdWords.get_batchjobs`: scan the ledger table in row order and load every row
whose last known status is non-terminal into the pending map via
`setdefault(client_id, {})[batchjob_id] = {'id': row_id, 'data': data}`. -/
def get_batchjobs (table : List LedgerRow) : PendingMap :=
  table.foldl
    (fun acc row =>
      if isTerminal row.data.status then acc
      else
        alistModify acc row.client_id []
          (fun inner => alistSet inner row.data.batchjob_id ⟨row.id, row.data⟩))
    []

/-- `AdWords._collect_jobs`: build the initial job collection. -/
def collect_jobs (table : List LedgerRow) : Jobs :=
  { pending := get_batchjobs table, dirty := [], done := [] }

/-- Build `formatted_dirty_job`: new status, `downloadUrl` when present (else the
empty string), client and job ids, and progress counters with lower-cased keys. -/
def formatDirty (cid : Int) (dj : DirtyJob) : FormattedJob :=
  { status := dj.status
    result_url := match dj.downloadUrl with | some u => u | none => ""
    client_id := cid
    batchjob_id := dj.id
    progress :=
      match dj.progressStats with
      | some ps => ps.foldl (fun m kv => alistSet m kv.1.toLower kv.2) []
      | none => [] }

/-- The body of the inner `for dirty_job in job_list` loop of
`AdWords._update_jobs_status`: look the job up in `pending` (a missing key is a
`KeyError`, modelled as `none`), skip it when the status is unchanged, otherwise
append one update row and, on a terminal status, move the job from `pending`
(dropping the client key once its last job is removed) into `done`. -/
def jobStep (cid : Int) (acc : PendingMap × DoneMap × List UpdateRow) (dj : DirtyJob) :
    Option (PendingMap × DoneMap × List UpdateRow) := do
  let (pending, done, updates) := acc
  let inner ← alistGet? pending cid
  let te ← alistGet? inner dj.id
  if dj.status = te.data.status then
    some (pending, done, updates)
  else
    let fj := formatDirty cid dj
    let updates' := updates ++ [⟨te.id, fj⟩]
    if isTerminal dj.status then
      let inner' := alistErase inner dj.id
      let pending' := if inner' = [] then alistErase pending cid else alistSet pending cid inner'
      let done' := alistModify done cid [] (fun m => alistSet m dj.id fj)
      some (pending', done', updates')
    else
      some (pending, done, updates')

/-- The `while jobs['dirty']` loop: `popitem` pops the most recently inserted
client entry, so the entries are processed in reverse insertion order; this
helper consumes the already-reversed list front to back. -/
def drainGo : DirtyMap → PendingMap × DoneMap × List UpdateRow →
    Option (PendingMap × DoneMap × List UpdateRow)
  | [], acc => some acc
  | (cid, jl) :: rest, acc => do
    let acc' ← jl.foldlM (jobStep cid) acc
    drainGo rest acc'

/-- `AdWords._update_jobs_status`: destructively drain `dirty`, producing the new
collection (where `dirty` has been emptied by the loop) and the list of update
rows later applied as one transactional multi-row `UPDATE` on the jobs table. -/
def update_jobs_status (jobs : Jobs) : Option (Jobs × List UpdateRow) := do
  let (p, d, u) ← drainGo jobs.dirty.reverse (jobs.pending, jobs.done, [])
  some ({ pending := p, dirty := [], done := d }, u)

/-- The remote batched status query `bjs.get_multiple_status(jobs['pending'])`,
as an oracle indexed by the poll-cycle number. -/
abbrev StatusOracle := Nat → PendingMap → DirtyMap

/-- Observable events of one `wait_jobs` run: a `time.sleep(sleep_time)`, the
remote status query, and the transactional ledger update (only executed when the
update list is non-empty). -/
inductive WaitEvent where
  | sleep (secs : Nat)
  | query
  | dbUpdate (updates : List UpdateRow)
deriving DecidableEq, Repr

/-- The `while len(jobs['pending']) > 0` loop of `AdWords.wait_jobs`, with fuel
bounding the number of poll cycles (`none` when the fuel runs out before the
loop exits, or when the reconcile step raises). Each cycle sleeps, doubles the
sleep time, queries the remote statuses of all pending jobs, and reconciles. -/
def waitJobsAux (oracle : StatusOracle) :
    Nat → Nat → Nat → Jobs → Option (Jobs × List WaitEvent)
  | 0, _, _, jobs => if jobs.pending = [] then some (jobs, []) else none
  | fuel + 1, sleepTime, cycle, jobs =>
    if jobs.pending = [] then some (jobs, [])
    else do
      let dirty := oracle cycle jobs.pending
      let (jobs', updates) ← update_jobs_status { jobs with dirty := dirty }
      let (final, tr) ← waitJobsAux oracle fuel (sleepTime * 2) (cycle + 1) jobs'
      some (final,
        WaitEvent.sleep sleepTime :: WaitEvent.query ::
          ((if updates = [] then [] else [WaitEvent.dbUpdate updates]) ++ tr))

/-- `AdWords.wait_jobs`: collect the ledger's non-terminal jobs and poll until
`pending` empties, starting from a 15 second sleep. -/
def wait_jobs (oracle : StatusOracle) (fuel : Nat) (table : List LedgerRow) :
    Option (Jobs × List WaitEvent) :=
  waitJobsAux oracle fuel 15 0 (collect_jobs table)

/-- The sleep durations of a trace, in order. -/
def sleepsOf (tr : List WaitEvent) : List Nat :=
  tr.filterMap (fun e => match e with | WaitEvent.sleep s => some s | _ => none)

/-- The remote status queries of a trace. -/
def queriesOf (tr : List WaitEvent) : List WaitEvent :=
  tr.filter (fun e => match e with | WaitEvent.query => true | _ => false)

/-- The ledger updates of a trace, concatenated in order. -/
def updatesOf (tr : List WaitEvent) : List UpdateRow :=
  tr.flatMap (fun e => match e with | WaitEvent.dbUpdate us => us | _ => [])

/-! ### Batch dispatcher (`_setup_operations` and `_execute_operations`)

The records streamed from the operations table are pairs `(client_id,
internal_operation)`; the internal operation type `ρ` and the wire operation
type `ω` are parameters. Python truthiness of a wire operation (`if operation:`)
is a parameter `truthy`. The remote batch-service collaborator is modelled from
the spec interface `create_job` / `upload(handle, operations, is_final)`:
`bjs.helper.add_operation` buffers one wire operation and
`bjs.helper.upload_operations(is_last)` flushes the buffer as one chunk. -/

/-- `batch_size = 5000` of `_execute_operations`. -/
def batch_size : Nat := 5000

/-- The network calls `_execute_operations` makes, in order: one `prepare_job`
(plus its ledger insert) per account switch, and one chunk upload per
`upload_operations` call carrying the flushed buffer and the `is_last` flag. -/
inductive NetEvent (ω : Type) where
  | createJob (cid : Int)
  | upload (ops : List ω) (isLast : Bool)
deriving DecidableEq, Repr

/-- The chunking state of the upload helper: `in_batch` (the counter of the
Python code) and the buffered, not yet uploaded wire operations. -/
structure Chunker (ω : Type) where
  inBatch : Nat
  buffer : List ω
deriving DecidableEq, Repr

/-- The body of `for operation in operation_builder(internal_operation)`:
a falsy result is skipped entirely; a truthy one first flushes a full buffer as
a non-final chunk (`in_batch > 0 and in_batch % batch_size == 0`), then is
buffered and counted. -/
def opStep {ω : Type} (truthy : ω → Bool) (st : Chunker ω) (op : ω) :
    Chunker ω × List (NetEvent ω) :=
  if truthy op then
    if 0 < st.inBatch ∧ st.inBatch % batch_size = 0 then
      (⟨st.inBatch + 1, [op]⟩, [NetEvent.upload st.buffer false])
    else
      (⟨st.inBatch + 1, st.buffer ++ [op]⟩, [])
  else (st, [])

/-- Run `opStep` over a list of built wire operations, concatenating the
emitted events. -/
def runOps {ω : Type} (truthy : ω → Bool) : Chunker ω → List ω → Chunker ω × List (NetEvent ω)
  | st, [] => (st, [])
  | st, op :: rest =>
    let p := opStep truthy st op
    let q := runOps truthy p.1 rest
    (q.1, p.2 ++ q.2)

/-- The dispatcher state: `previous_client_id` and the helper's chunking state. -/
structure ExecSt (ω : Type) where
  prev : Option Int
  chunk : Chunker ω
deriving DecidableEq, Repr

/-- The `if previous_client_id is not None: upload_operations(is_last=True)`
flush emitted on an account switch: the final chunk of the previous account
(nothing when there is no previous account). -/
def flushPre {ω : Type} (st : ExecSt ω) : List (NetEvent ω) :=
  match st.prev with
  | some _ => [NetEvent.upload st.chunk.buffer true]
  | none => []

/-- The body of `for client_id, internal_operation in operations`: on an
account-id change, flush the previous account's buffer as a final chunk (when
there is a previous account), create and log a new job and reset the counter;
then build and process the record's wire operations. -/
def recStep {ρ ω : Type} (truthy : ω → Bool) (builder : ρ → List ω)
    (st : ExecSt ω) (rec : Int × ρ) : ExecSt ω × List (NetEvent ω) :=
  let switched : ExecSt ω × List (NetEvent ω) :=
    if st.prev = some rec.1 then (st, [])
    else (⟨some rec.1, ⟨0, []⟩⟩, flushPre st ++ [NetEvent.createJob rec.1])
  let r := runOps truthy switched.1.chunk (builder rec.2)
  (⟨switched.1.prev, r.1⟩, switched.2 ++ r.2)

/-- Run `recStep` over the streamed records, concatenating the emitted events. -/
def runRecords {ρ ω : Type} (truthy : ω → Bool) (builder : ρ → List ω) :
    ExecSt ω → List (Int × ρ) → ExecSt ω × List (NetEvent ω)
  | st, [] => (st, [])
  | st, rec :: rest =>
    let p := recStep truthy builder st rec
    let q := runRecords truthy builder p.1 rest
    (q.1, p.2 ++ q.2)

/-- `AdWords._execute_operations`: stream all records, then (when the batch-job
service handle is not `None`) flush the remaining buffer as the final chunk. -/
def execute_operations {ρ ω : Type} (truthy : ω → Bool) (builder : ρ → List ω)
    (hasBjs : Bool) (operations : List (Int × ρ)) : List (NetEvent ω) :=
  let r := runRecords truthy builder ⟨none, ⟨0, []⟩⟩ operations
  r.2 ++ (if hasBjs then [NetEvent.upload r.1.chunk.buffer true] else [])

/-- `AdWords._setup_operations`: count the operations table; an empty table
yields no service handle (`None`) and an empty stream. -/
def setup_operations {ρ : Type} (table : List (Int × ρ)) : Bool × List (Int × ρ) :=
  if table.length = 0 then (false, []) else (true, table)

/-- A full dispatch run (`modify_bids` and friends): `_setup_operations`
followed by `_execute_operations`. -/
def dispatch {ρ ω : Type} (truthy : ω → Bool) (builder : ρ → List ω)
    (table : List (Int × ρ)) : List (NetEvent ω) :=
  let p := setup_operations table
  execute_operations truthy builder p.1 p.2

/-- The job-creation events of a dispatch trace. -/
def createsOf {ω : Type} (evs : List (NetEvent ω)) : List Int :=
  evs.filterMap (fun e => match e with | NetEvent.createJob c => some c | _ => none)

/-- The `is_last` flags of the upload events of a dispatch trace, in order. -/
def uploadFlags {ω : Type} (evs : List (NetEvent ω)) : List Bool :=
  evs.filterMap (fun e => match e with | NetEvent.upload _ b => some b | _ => none)

/-- The uploaded wire operations of a trace, concatenated in upload order. -/
def uploadedOps {ω : Type} (evs : List (NetEvent ω)) : List ω :=
  evs.flatMap (fun e => match e with | NetEvent.upload ops _ => ops | _ => [])

/-- Count the maximal runs of consecutive records with the same account id,
given the account id processed just before (`previous_client_id`). -/
def runsFrom {ρ : Type} : Option Int → List (Int × ρ) → Nat
  | _, [] => 0
  | prev, rec :: rest =>
    (if prev = some rec.1 then 0 else 1) + runsFrom (some rec.1) rest

/-- The distinct account ids of a log, in order of first appearance. -/
def accountsOf {ρ : Type} (table : List (Int × ρ)) : List Int :=
  table.foldl (fun acc rec => if rec.1 ∈ acc then acc else acc ++ [rec.1]) []

/-! ### Storage helpers (`get_min_value`, `count_table`, `insert`) -/

/-- The outcome of one `select min(column) from table` query in `get_min_value`:
the query may raise `OperationalError` (skipped), return a SQL `NULL`, or return
a value. -/
inductive ColResult where
  | err
  | nullMin
  | val (v : Int)
deriving DecidableEq, Repr

/-- `AdWords.get_min_value`: start from 0 and lower it with every observed
non-null column minimum that is strictly smaller, skipping failing queries. -/
def get_min_value (cols : List ColResult) : Int :=
  cols.foldl
    (fun mv c =>
      match c with
      | ColResult.val v => if mv > v then v else mv
      | _ => mv)
    0

/-- The observed (successful, non-null) column minima, in query order. -/
def observedMins (cols : List ColResult) : List Int :=
  cols.filterMap (fun c => match c with | ColResult.val v => some v | _ => none)

/-- A `select count(*)` query result: `OperationalError` (e.g. the table does
not exist) or a row count. -/
inductive CountResult where
  | opError
  | count (n : Nat)
deriving DecidableEq, Repr

/-- A minimal named table store; `count_table` runs its query against it. -/
abbrev TableStore := List (String × List LedgerRow)

/-- `select count(*) from {table_name}` against the store: a missing table
raises `OperationalError`, an existing table reports its row count. -/
def countQuery (store : TableStore) (name : String) : CountResult :=
  match alistGet? store name with
  | none => CountResult.opError
  | some rows => CountResult.count rows.length

/-- `AdWords.count_table`: run the count query and catch `OperationalError`,
reporting 0 in that case. -/
def count_table (store : TableStore) (name : String) : Nat :=
  match countQuery store name with
  | CountResult.opError => 0
  | CountResult.count n => n

/-- A Python value as it appears in an operation record passed to `insert`:
`None`, a float `NaN`, a non-finite number (infinity), a finite number
(modelled exactly as a rational), or a string. -/
inductive PyVal where
  | none
  | nan
  | inf
  | num (q : ℚ)
  | str (s : String)
deriving DecidableEq, Repr

/-- Python truthiness of a `PyVal` (`if item`): `None`, `0` and `""` are falsy;
`nan` and infinities are truthy. -/
def pyTruthy : PyVal → Bool
  | PyVal.none => false
  | PyVal.nan => true
  | PyVal.inf => true
  | PyVal.num q => q ≠ 0
  | PyVal.str s => s ≠ ""

/-- `_iter_floats`: yield `float(item)` for every truthy, finite numeric item;
`math.isfinite` raises `TypeError` on strings (caught and skipped) and returns
`False` on `nan` and infinities, so exactly the nonzero finite numbers remain. -/
def iter_floats : List PyVal → List ℚ
  | [] => []
  | v :: rest =>
    match v with
    | PyVal.num q => if q ≠ 0 then q :: iter_floats rest else iter_floats rest
    | _ => iter_floats rest

/-- `AdWords._get_dict_min_value`: `min(int(floor(u)) for u in _iter_floats(values))`;
the minimum of an empty sequence raises `ValueError` (modelled as `none`). -/
def get_dict_min_value (vals : List PyVal) : Option Int :=
  ((iter_floats vals).map Rat.floor).min?

/-- The `{k: v for k, v in entry.items() if v is not None and v == v}` filter of
`_make_entry`: drop pairs whose value is `None` or `NaN` (the only Python value
with `v == v` false). -/
def dropNoneNan (entry : List (String × PyVal)) : List (String × PyVal) :=
  entry.filter (fun kv => kv.2 ≠ PyVal.none ∧ kv.2 ≠ PyVal.nan)

/-- How a single-record `insert` call can fail: the `ValueError` re-raised by
`_get_dict_min_value` on a record with no nonzero finite numeric value, or the
`KeyError` of `entry['client_id']` when the filtered record has no `client_id`. -/
inductive InsertError where
  | valueError
  | keyError
deriving DecidableEq, Repr

/-- `AdWords._make_entry` acting on the `table_min_id` cache for one table:
filter the record, fold the record's minimum into the cached minimum id
(defaulting to 0), then build the payload row reading `entry['client_id']`.
Returns the cache value after the call (the cache mutation precedes the
`client_id` lookup) together with the outcome. -/
def make_entry (cached : Option Int) (entry : List (String × PyVal)) :
    Option Int × Except InsertError (PyVal × List (String × PyVal)) :=
  let filtered := dropNoneNan entry
  match get_dict_min_value (filtered.map Prod.snd) with
  | none => (cached, Except.error InsertError.valueError)
  | some m =>
    let newMin := min (cached.getD 0) m
    match alistGet? filtered "client_id" with
    | none => (some newMin, Except.error InsertError.keyError)
    | some cv => (some newMin, Except.ok (cv, filtered))

/-- `AdWords.insert` on a single mapping record: one `_make_entry` call followed
by the bulk insert of the produced row (storage success is assumed; the claims
concern the entry construction and the `table_min_id` cache). -/
def insertRecord (cache : List (String × Int)) (table : String)
    (entry : List (String × PyVal)) :
    List (String × Int) × Except InsertError (PyVal × List (String × PyVal)) :=
  let r := make_entry (alistGet? cache table) entry
  (match r.1 with
    | some m => alistSet cache table m
    | none => cache,
   r.2)

/-! ### Theorems -/

theorem ite_gt_eq_min (a v : Int) : (if a > v then v else a) = min a v := by
  rcases lt_or_ge v a with h | h
  · rw [if_pos h, min_eq_right (le_of_lt h)]
  · rw [if_neg (not_lt.mpr h), min_eq_left h]

theorem get_min_value_foldl (cols : List ColResult) :
    ∀ a : Int, cols.foldl
        (fun mv c => match c with | ColResult.val v => if mv > v then v else mv | _ => mv) a
      = (observedMins cols).foldl min a := by
  induction cols with
  | nil => intro a; rfl
  | cons c rest ih =>
    intro a
    cases c with
    | err => simpa [observedMins, List.filterMap] using ih a
    | nullMin => simpa [observedMins, List.filterMap] using ih a
    | val v =>
      simp only [List.foldl, observedMins, List.filterMap]
      rw [ite_gt_eq_min]
      exact ih (min a v)

theorem foldl_min_le_init (l : List Int) : ∀ a : Int, l.foldl min a ≤ a := by
  induction l with
  | nil => intro a; exact le_refl a
  | cons v rest ih =>
    intro a
    exact le_trans (ih (min a v)) (min_le_left a v)

theorem foldl_min_of_le (l : List Int) : ∀ a : Int, (∀ v ∈ l, a ≤ v) → l.foldl min a = a := by
  induction l with
  | nil => intro a _; rfl
  | cons v rest ih =>
    intro a h
    have hv : a ≤ v := h v (List.mem_cons_self v rest)
    simp only [List.foldl, min_eq_left hv]
    exact ih a (fun w hw => h w (List.mem_cons_of_mem v hw))

/-- Claim C8: `get_min_value` returns the minimum of 0 and the smallest observed
non-null column minimum, skipping failing queries; the result is never positive,
and it is exactly 0 whenever every observed column minimum is nonnegative. -/
theorem get_min_value_spec (cols : List ColResult) :
    get_min_value cols = (observedMins cols).foldl min 0
    ∧ get_min_value cols ≤ 0
    ∧ ((∀ v ∈ observedMins cols, 0 ≤ v) → get_min_value cols = 0) := by
  have h := get_min_value_foldl cols 0
  refine ⟨h, ?_, ?_⟩
  · rw [show get_min_value cols = cols.foldl
        (fun mv c => match c with | ColResult.val v => if mv > v then v else mv | _ => mv) 0
        from rfl, h]
    exact foldl_min_le_init (observedMins cols) 0
  · intro hle
    rw [show get_min_value cols = cols.foldl
        (fun mv c => match c with | ColResult.val v => if mv > v then v else mv | _ => mv) 0
        from rfl, h]
    exact foldl_min_of_le (observedMins cols) 0 hle

/-- Witness for C8 at concrete inputs: all observed minima nonnegative gives 0. -/
theorem get_min_value_spec_witness :
    get_min_value [ColResult.val 3, ColResult.err, ColResult.val 5] = 0 :=
  (get_min_value_spec [ColResult.val 3, ColResult.err, ColResult.val 5]).2.2 (by decide)

theorem alistGet?_set_self {α β : Type} [DecidableEq α] (l : List (α × β)) (k : α) (v : β) :
    alistGet? (alistSet l k v) k = some v := by
  induction l with
  | nil => simp [alistSet, alistGet?]
  | cons p rest ih =>
    by_cases h : k = p.1
    · simp [alistSet, alistGet?, h]
    · simp [alistSet, alistGet?, h, ih]

/-- Claim C9: for a table name missing from the store, the count query raises
`OperationalError`, which `count_table` catches, reporting 0 — the same result
it reports for an existing empty table. -/
theorem count_table_missing_zero (store : TableStore) (name : String)
    (h : alistGet? store name = none) :
    countQuery store name = CountResult.opError
    ∧ count_table store name = 0
    ∧ count_table (alistSet store name []) name = 0 := by
  refine ⟨?_, ?_, ?_⟩
  · simp [countQuery, h]
  · simp [count_table, countQuery, h]
  · simp [count_table, countQuery, alistGet?_set_self]

/-- Witness for C9 at a concrete store. -/
theorem count_table_missing_zero_witness :
    count_table [("other", [])] "missing" = 0
    ∧ count_table (alistSet [("other", [])] "missing" []) "missing" = 0 :=
  ⟨(count_table_missing_zero [("other", [])] "missing" (by decide)).2.1,
   (count_table_missing_zero [("other", [])] "missing" (by decide)).2.2⟩

theorem ratFloor_eq_intFloor (q : ℚ) : Rat.floor q = Int.floor q := by
  apply le_antisymm
  · exact Int.le_floor.mpr (Rat.le_floor.mp (le_refl _))
  · exact Rat.le_floor.mpr (Int.le_floor.mp (le_refl _))

theorem ratFloor_mono : Monotone Rat.floor := by
  intro a b h
  exact Rat.le_floor.mpr (le_trans (Rat.le_floor.mp (le_refl _)) h)

theorem min?_map_ratFloor (l : List ℚ) :
    (l.map Rat.floor).min? = l.min?.map Rat.floor := by
  induction l with
  | nil => rfl
  | cons a rest ih =>
    rw [List.map_cons, List.min?_cons, List.min?_cons, ih]
    cases h : rest.min? with
    | none => rfl
    | some m => simp [Option.elim, ratFloor_mono.map_min]

/-- Claim C10 (amended): `_make_entry` drops `None` and `NaN` values; when no
remaining value is a nonzero finite number the minimum of an empty sequence
raises `ValueError` and the cached minimum id is untouched; otherwise the cache
becomes the minimum of its previous value (0 when absent) and the floor of the
record's smallest nonzero finite numeric value — so it never increases and,
once nonpositive, stays nonpositive — and the insert then succeeds exactly when
the filtered record still has a `client_id` key (a dropped or missing
`client_id` raises `KeyError` after the cache update). -/
theorem make_entry_min_id (cached : Option Int) (entry : List (String × PyVal)) :
    (iter_floats ((dropNoneNan entry).map Prod.snd) = [] →
      make_entry cached entry = (cached, Except.error InsertError.valueError))
    ∧ (∀ m, get_dict_min_value ((dropNoneNan entry).map Prod.snd) = some m →
        (make_entry cached entry).1 = some (min (cached.getD 0) m)
        ∧ min (cached.getD 0) m ≤ cached.getD 0
        ∧ (cached.getD 0 ≤ 0 → min (cached.getD 0) m ≤ 0)
        ∧ (alistGet? (dropNoneNan entry) "client_id" = none →
            (make_entry cached entry).2 = Except.error InsertError.keyError)
        ∧ (∀ cv, alistGet? (dropNoneNan entry) "client_id" = some cv →
            (make_entry cached entry).2 = Except.ok (cv, dropNoneNan entry)))
    ∧ (∀ q, (iter_floats ((dropNoneNan entry).map Prod.snd)).min? = some q →
        get_dict_min_value ((dropNoneNan entry).map Prod.snd) = some (Rat.floor q))
    ∧ (∀ (cache : List (String × Int)) (table : String) m,
        get_dict_min_value ((dropNoneNan entry).map Prod.snd) = some m →
        alistGet? (insertRecord cache table entry).1 table
          = some (min ((alistGet? cache table).getD 0) m)) := by
  refine ⟨?_, ?_, ?_, ?_⟩
  · intro h
    have hm : get_dict_min_value ((dropNoneNan entry).map Prod.snd) = none := by
      rw [get_dict_min_value, h]; rfl
    simp [make_entry, hm]
  · intro m hm
    refine ⟨?_, min_le_left _ _, fun h0 => le_trans (min_le_left _ _) h0, ?_, ?_⟩
    · simp only [make_entry, hm]
      cases alistGet? (dropNoneNan entry) "client_id" <;> rfl
    · intro hcid
      simp [make_entry, hm, hcid]
    · intro cv hcid
      simp [make_entry, hm, hcid]
  · intro q hq
    rw [get_dict_min_value, min?_map_ratFloor, hq]; rfl
  · intro cache table m hm
    have h1 : (make_entry (alistGet? cache table) entry).1
        = some (min ((alistGet? cache table).getD 0) m) := by
      simp only [make_entry, hm]
      cases alistGet? (dropNoneNan entry) "client_id" <;> rfl
    rw [insertRecord, h1]
    exact alistGet?_set_self cache table (min ((alistGet? cache table).getD 0) m)

/-- Counterexample for claim C10 as stated: the record `{'x': 5}` keeps a
nonzero finite numeric value after dropping, so the claim requires the insert
to succeed; the code instead raises `KeyError` on `entry['client_id']` (after
updating the cached minimum id). -/
theorem insert_missing_client_id_cex :
    insertRecord [] "t" [("x", PyVal.num 5)]
      = ([("t", 0)], Except.error InsertError.keyError)
    ∧ iter_floats ((dropNoneNan [("x", PyVal.num 5)]).map Prod.snd) = [(5 : ℚ)] := by
  exact ⟨rfl, rfl⟩

/-- Witness for C10 at a concrete record with `client_id` present. -/
theorem make_entry_min_id_witness :
    alistGet? (insertRecord [] "t" [("client_id", PyVal.num 10), ("x", PyVal.num (-3))]).1 "t"
      = some (min 0 (-3)) :=
  (make_entry_min_id none [("client_id", PyVal.num 10), ("x", PyVal.num (-3))]).2.2.2
    [] "t" (-3) (by rfl)

theorem get_batchjobs_foldl_terminal (rows : List LedgerRow) :
    ∀ acc : PendingMap, (∀ r ∈ rows, isTerminal r.data.status = true) →
      rows.foldl
        (fun acc row =>
          if isTerminal row.data.status then acc
          else
            alistModify acc row.client_id []
              (fun inner => alistSet inner row.data.batchjob_id ⟨row.id, row.data⟩)) acc
      = acc := by
  induction rows with
  | nil => intro acc _; rfl
  | cons r rest ih =>
    intro acc h
    have hr : isTerminal r.data.status = true := h r (List.mem_cons_self r rest)
    simp only [List.foldl, hr, if_pos]
    exact ih acc (fun w hw => h w (List.mem_cons_of_mem r hw))

theorem get_batchjobs_all_terminal (rows : List LedgerRow)
    (h : ∀ r ∈ rows, isTerminal r.data.status = true) : get_batchjobs rows = [] :=
  get_batchjobs_foldl_terminal rows [] h

/-- Claim C1 (amended): on a jobs table whose every recorded job is terminal
(`DONE` or `CANCELED`), `wait_jobs` returns immediately — no sleep, no remote
status query — and the returned collection has `pending`, `dirty` and `done`
all empty: terminal ledger rows are never loaded, so they do not appear in
`done` either. -/
theorem wait_jobs_all_terminal (oracle : StatusOracle) (fuel : Nat)
    (table : List LedgerRow) (h : ∀ r ∈ table, isTerminal r.data.status = true) :
    wait_jobs oracle fuel table = some ({ pending := [], dirty := [], done := [] }, []) := by
  have hp : collect_jobs table = { pending := [], dirty := [], done := [] } := by
    rw [collect_jobs, get_batchjobs_all_terminal table h]
  rw [wait_jobs, hp]
  cases fuel with
  | zero => rfl
  | succ n => rfl

/-- Counterexample for claim C1 as stated: a table with one `DONE` job returns a
collection whose `done` map is empty — it does not contain that job (the claim
requires `done` to contain every terminal job). -/
theorem wait_jobs_done_left_empty_cex :
    wait_jobs (fun _ _ => []) 1 [⟨1, 10, ⟨77, "DONE"⟩⟩]
      = some ({ pending := [], dirty := [], done := [] }, [])
    ∧ alistGet?
        (((wait_jobs (fun _ _ => []) 1 [⟨1, 10, ⟨77, "DONE"⟩⟩]).getD
            ({ pending := [], dirty := [], done := [] }, [])).1).done 10
      = none :=
  ⟨rfl, rfl⟩

/-- Witness for C1 at a concrete all-terminal table. -/
theorem wait_jobs_all_terminal_witness :
    wait_jobs (fun _ _ => []) 3 [⟨1, 10, ⟨77, "DONE"⟩⟩, ⟨2, 11, ⟨78, "CANCELED"⟩⟩]
      = some ({ pending := [], dirty := [], done := [] }, []) :=
  wait_jobs_all_terminal (fun _ _ => []) 3
    [⟨1, 10, ⟨77, "DONE"⟩⟩, ⟨2, 11, ⟨78, "CANCELED"⟩⟩] (by decide)

theorem sleepsOf_append (a b : List WaitEvent) :
    sleepsOf (a ++ b) = sleepsOf a ++ sleepsOf b := by
  simp [sleepsOf, List.filterMap_append]

theorem waitJobsAux_backoff (fuel : Nat) :
    ∀ (oracle : StatusOracle) (s c : Nat) (jobs : Jobs) (res : Jobs × List WaitEvent),
      waitJobsAux oracle fuel s c jobs = some res →
      sleepsOf res.2 = (List.range (sleepsOf res.2).length).map (fun k => s * 2 ^ k) := by
  induction fuel with
  | zero =>
    intro oracle s c jobs res h
    rw [waitJobsAux] at h
    by_cases hp : jobs.pending = []
    · rw [if_pos hp] at h
      cases h
      rfl
    · rw [if_neg hp] at h
      exact absurd h (by simp)
  | succ n ih =>
    intro oracle s c jobs res h
    rw [waitJobsAux] at h
    by_cases hp : jobs.pending = []
    · rw [if_pos hp] at h
      cases h
      rfl
    · rw [if_neg hp] at h
      cases hu : update_jobs_status { jobs with dirty := oracle c jobs.pending } with
      | none => simp [hu] at h
      | some ju =>
        obtain ⟨jobs', updates⟩ := ju
        simp only [hu, Option.bind_eq_bind', Option.some_bind] at h
        cases hr : waitJobsAux oracle n (s * 2) (c + 1) jobs' with
        | none => simp [hr] at h
        | some ft =>
          obtain ⟨final, tr⟩ := ft
          obtain ⟨res1, res2⟩ := res
          have htr := ih oracle (s * 2) (c + 1) jobs' (final, tr) hr
          dsimp only at htr
          simp only [hr, Option.some_bind, Option.some.injEq, Prod.mk.injEq] at h
          obtain ⟨h1, h2⟩ := h
          obtain ⟨m, hm⟩ : ∃ m, sleepsOf tr = (List.range m).map (fun k => s * 2 * 2 ^ k) :=
            ⟨(sleepsOf tr).length, htr⟩
          have hsl : sleepsOf res2 = s :: sleepsOf tr := by
            rw [← h2]
            simp only [sleepsOf, List.filterMap_cons, List.filterMap_append]
            by_cases hz : updates = [] <;> simp [hz]
          dsimp only
          rw [hsl, hm, List.length_cons, List.length_map, List.length_range,
            List.range_succ_eq_map, List.map_cons, List.map_map]
          refine congrArg₂ _ (by rw [pow_zero, Nat.mul_one]) ?_
          refine List.map_congr_left ?_
          intro k _
          simp only [Function.comp_apply, Nat.succ_eq_add_one, pow_succ]
          ring

/-- Claim C5: the sleep durations of a `wait_jobs` run form the sequence
`15, 30, 60, ...`: the k-th sleep (0-indexed) lasts `15 * 2 ^ k` seconds, with
no upper bound enforced by the loop. -/
theorem wait_jobs_backoff (oracle : StatusOracle) (fuel : Nat) (table : List LedgerRow)
    (res : Jobs × List WaitEvent) (h : wait_jobs oracle fuel table = some res) :
    sleepsOf res.2 = (List.range (sleepsOf res.2).length).map (fun k => 15 * 2 ^ k) :=
  waitJobsAux_backoff fuel oracle 15 0 (collect_jobs table) res h

/-- A two-job ledger used in the concrete polling scenarios. -/
def exTable2 : List LedgerRow :=
  [⟨1, 10, ⟨100, "PROCESSING"⟩⟩, ⟨2, 10, ⟨101, "PROCESSING"⟩⟩]

/-- Remote statuses over time for the concrete scenarios: job 100 turns `DONE`
from cycle 1 on, job 101 from cycle 2 on. -/
def statusAt (n : Nat) (jid : Nat) : Status :=
  if jid = 100 then (if 1 ≤ n then "DONE" else "PROCESSING")
  else (if 2 ≤ n then "DONE" else "PROCESSING")

/-- A status oracle answering for exactly the jobs it is asked about. -/
def exOracle : StatusOracle := fun n pending =>
  pending.map (fun ci => (ci.1, ci.2.map (fun jt => ⟨jt.1, statusAt n jt.1, none, none⟩)))

/-- The concrete three-cycle run of `wait_jobs` on `exTable2` under `exOracle`. -/
def exRun : Jobs × List WaitEvent :=
  (wait_jobs exOracle 5 exTable2).getD ({ pending := [], dirty := [], done := [] }, [])

/-- Witness for C5: the concrete run sleeps 15, 30 and 60 seconds. -/
theorem wait_jobs_backoff_witness :
    sleepsOf exRun.2 = (List.range (sleepsOf exRun.2).length).map (fun k => 15 * 2 ^ k) :=
  wait_jobs_backoff exOracle 5 exTable2 exRun (by rfl)

theorem update_jobs_status_dirty_empty (jobs : Jobs) (res : Jobs × List UpdateRow)
    (h : update_jobs_status jobs = some res) : res.1.dirty = [] := by
  rw [update_jobs_status] at h
  cases hd : drainGo jobs.dirty.reverse (jobs.pending, jobs.done, []) with
  | none => simp [hd, Option.bind_eq_bind', Option.none_bind] at h
  | some pdu =>
    obtain ⟨p, d, u⟩ := pdu
    simp only [hd, Option.bind_eq_bind', Option.some_bind, Option.some.injEq] at h
    rw [← h]

theorem waitJobsAux_dirty_empty (fuel : Nat) :
    ∀ (oracle : StatusOracle) (s c : Nat) (jobs : Jobs) (res : Jobs × List WaitEvent),
      jobs.dirty = [] → waitJobsAux oracle fuel s c jobs = some res → res.1.dirty = [] := by
  induction fuel with
  | zero =>
    intro oracle s c jobs res hd h
    rw [waitJobsAux] at h
    by_cases hp : jobs.pending = []
    · rw [if_pos hp] at h
      cases h
      exact hd
    · rw [if_neg hp] at h
      exact absurd h (by simp)
  | succ n ih =>
    intro oracle s c jobs res hd h
    rw [waitJobsAux] at h
    by_cases hp : jobs.pending = []
    · rw [if_pos hp] at h
      cases h
      exact hd
    · rw [if_neg hp] at h
      cases hu : update_jobs_status { jobs with dirty := oracle c jobs.pending } with
      | none => simp [hu] at h
      | some ju =>
        obtain ⟨jobs', updates⟩ := ju
        simp only [hu, Option.bind_eq_bind', Option.some_bind] at h
        cases hr : waitJobsAux oracle n (s * 2) (c + 1) jobs' with
        | none => simp [hr] at h
        | some ft =>
          obtain ⟨final, tr⟩ := ft
          obtain ⟨res1, res2⟩ := res
          have hj : jobs'.dirty = [] :=
            update_jobs_status_dirty_empty _ (jobs', updates) hu
          have hf := ih oracle (s * 2) (c + 1) jobs' (final, tr) hj hr
          simp only [hr, Option.some_bind, Option.some.injEq, Prod.mk.injEq] at h
          obtain ⟨h1, _⟩ := h
          rw [← h1]
          exact hf

/-- Claim C7: `dirty` is scratch space of a single refresh cycle — it is empty
in the collection `_collect_jobs` builds, empty again in the collection
`_update_jobs_status` returns (its `while` loop pops `dirty` until it is
exhausted before the function returns), and hence empty in the collection a
completed `wait_jobs` run returns. -/
theorem dirty_scratch_invariant :
    (∀ table : List LedgerRow, (collect_jobs table).dirty = [])
    ∧ (∀ (jobs : Jobs) (res : Jobs × List UpdateRow),
        update_jobs_status jobs = some res → res.1.dirty = [])
    ∧ (∀ (oracle : StatusOracle) (fuel : Nat) (table : List LedgerRow)
        (res : Jobs × List WaitEvent),
        wait_jobs oracle fuel table = some res → res.1.dirty = []) := by
  refine ⟨fun table => rfl, update_jobs_status_dirty_empty, ?_⟩
  intro oracle fuel table res h
  exact waitJobsAux_dirty_empty fuel oracle 15 0 (collect_jobs table) res rfl h

/-- The concrete reconcile input used by the C7 witness: two pending jobs of
client 10, the dirty map reporting job 101 terminal. -/
def exReconcileJobs : Jobs :=
  { pending := [(10, [(100, ⟨1, ⟨100, "PROCESSING"⟩⟩), (101, ⟨2, ⟨101, "ACTIVE"⟩⟩)])]
    dirty := [(10, [⟨100, "PROCESSING", none, none⟩, ⟨101, "DONE", some "u", some [("NumOps", 3)]⟩])]
    done := [] }

/-- The collection and updates `_update_jobs_status` returns on `exReconcileJobs`. -/
def exReconcileRes : Jobs × List UpdateRow :=
  (update_jobs_status exReconcileJobs).getD ({ pending := [], dirty := [], done := [] }, [])

/-- Witness for C7 at concrete inputs. -/
theorem dirty_scratch_invariant_witness :
    (collect_jobs exTable2).dirty = []
    ∧ exReconcileRes.1.dirty = []
    ∧ exRun.1.dirty = [] :=
  ⟨dirty_scratch_invariant.1 exTable2,
   dirty_scratch_invariant.2.1 exReconcileJobs exReconcileRes (by rfl),
   dirty_scratch_invariant.2.2 exOracle 5 exTable2 exRun (by rfl)⟩

/-- Claim C4: one reconcile step over a dirty entry: an unchanged status causes
no ledger update; a changed status produces exactly one update row targeting the
row id captured at dispatch time and carrying the formatted record (new status,
result url from `downloadUrl` or empty, lower-cased progress keys); a terminal
new status moves the job from `pending` to `done` under its account, dropping
the account key from `pending` once its last job is removed. In the concrete
two-cycle run `exRun`, job 100 turns `PROCESSING` to `DONE` between cycles and
its ledger row (id 1) is updated exactly once over all cycles. -/
theorem update_jobs_status_reconcile :
    (∀ (pending : PendingMap) (done : DoneMap) (cid : Int) (dj : DirtyJob)
        (inner : List (Nat × TableEntry)) (te : TableEntry),
        alistGet? pending cid = some inner → alistGet? inner dj.id = some te →
        (dj.status = te.data.status →
          update_jobs_status ⟨pending, [(cid, [dj])], done⟩
            = some (⟨pending, [], done⟩, []))
        ∧ (dj.status ≠ te.data.status → isTerminal dj.status = false →
          update_jobs_status ⟨pending, [(cid, [dj])], done⟩
            = some (⟨pending, [], done⟩, [⟨te.id, formatDirty cid dj⟩]))
        ∧ (dj.status ≠ te.data.status → isTerminal dj.status = true →
          update_jobs_status ⟨pending, [(cid, [dj])], done⟩
            = some (⟨(if alistErase inner dj.id = [] then alistErase pending cid
                      else alistSet pending cid (alistErase inner dj.id)), [],
                     alistModify done cid []
                       (fun m => alistSet m dj.id (formatDirty cid dj))⟩,
                    [⟨te.id, formatDirty cid dj⟩])))
    ∧ (∀ (cid : Int) (dj : DirtyJob),
        (formatDirty cid dj).status = dj.status
        ∧ (formatDirty cid dj).batchjob_id = dj.id
        ∧ (formatDirty cid dj).client_id = cid
        ∧ (dj.downloadUrl = none → (formatDirty cid dj).result_url = "")
        ∧ (∀ u, dj.downloadUrl = some u → (formatDirty cid dj).result_url = u)
        ∧ (∀ ps, dj.progressStats = some ps →
            (formatDirty cid dj).progress
              = ps.foldl (fun m kv => alistSet m kv.1.toLower kv.2) []))
    ∧ ((updatesOf exRun.2).map (fun u => u.id) = [1, 2]
        ∧ ((updatesOf exRun.2).filter (fun u => u.id = 1)).length = 1
        ∧ (updatesOf exRun.2).map (fun u => u.operation.status) = ["DONE", "DONE"]
        ∧ exRun.1.pending = []
        ∧ alistGet? ((alistGet? exRun.1.done 10).getD []) 100
            = some (formatDirty 10 ⟨100, "DONE", none, none⟩)) := by
  refine ⟨?_, ?_, ?_⟩
  · intro pending done cid dj inner te h1 h2
    refine ⟨?_, ?_, ?_⟩
    · intro heq
      simp [update_jobs_status, drainGo, List.foldlM, jobStep, h1, h2, heq,
        Option.bind_eq_bind', Option.some_bind]
    · intro hne hterm
      simp [update_jobs_status, drainGo, List.foldlM, jobStep, h1, h2, hne, hterm,
        Option.bind_eq_bind', Option.some_bind]
    · intro hne hterm
      simp [update_jobs_status, drainGo, List.foldlM, jobStep, h1, h2, hne, hterm,
        Option.bind_eq_bind', Option.some_bind]
  · intro cid dj
    refine ⟨rfl, rfl, rfl, ?_, ?_, ?_⟩
    · intro h; simp [formatDirty, h]
    · intro u h; simp [formatDirty, h]
    · intro ps h; simp [formatDirty, h]
  · exact ⟨by rfl, by rfl, by rfl, by rfl, by rfl⟩

/-- Witness for C4 at concrete inputs: a changed terminal status produces one
update row for the dispatched row id and moves the job to `done`. -/
theorem update_jobs_status_reconcile_witness :
    update_jobs_status
        ⟨[(10, [(101, ⟨2, ⟨101, "ACTIVE"⟩⟩)])],
         [(10, [⟨101, "DONE", some "u", none⟩])], []⟩
      = some (⟨[], [],
               [(10, [(101, formatDirty 10 ⟨101, "DONE", some "u", none⟩)])]⟩,
              [⟨2, formatDirty 10 ⟨101, "DONE", some "u", none⟩⟩]) := by
  have h := (update_jobs_status_reconcile.1
    [(10, [(101, ⟨2, ⟨101, "ACTIVE"⟩⟩)])] [] 10 ⟨101, "DONE", some "u", none⟩
    [(101, ⟨2, ⟨101, "ACTIVE"⟩⟩)] ⟨2, ⟨101, "ACTIVE"⟩⟩ (by rfl) (by rfl)).2.2
    (by decide) (by rfl)
  rw [h]
  rfl

theorem runOps_append {ω : Type} (truthy : ω → Bool) (l1 l2 : List ω) :
    ∀ st : Chunker ω,
      runOps truthy st (l1 ++ l2)
        = ((runOps truthy (runOps truthy st l1).1 l2).1,
           (runOps truthy st l1).2 ++ (runOps truthy (runOps truthy st l1).1 l2).2) := by
  induction l1 with
  | nil => intro st; simp [runOps]
  | cons op rest ih =>
    intro st
    simp only [List.cons_append, runOps, List.append_eq, ih, List.append_assoc]

theorem runRecords_append {ρ ω : Type} (truthy : ω → Bool) (builder : ρ → List ω)
    (l1 l2 : List (Int × ρ)) :
    ∀ st : ExecSt ω,
      runRecords truthy builder st (l1 ++ l2)
        = ((runRecords truthy builder (runRecords truthy builder st l1).1 l2).1,
           (runRecords truthy builder st l1).2
             ++ (runRecords truthy builder (runRecords truthy builder st l1).1 l2).2) := by
  induction l1 with
  | nil => intro st; simp [runRecords]
  | cons rec rest ih =>
    intro st
    simp only [List.cons_append, runRecords, List.append_eq, ih, List.append_assoc]

theorem recStep_prev {ρ ω : Type} (truthy : ω → Bool) (builder : ρ → List ω)
    (st : ExecSt ω) (rec : Int × ρ) :
    (recStep truthy builder st rec).1.prev = some rec.1 := by
  rw [recStep]
  by_cases h : st.prev = some rec.1
  · simp only [if_pos h]
    exact h
  · simp only [if_neg h]

theorem createsOf_append {ω : Type} (a b : List (NetEvent ω)) :
    createsOf (a ++ b) = createsOf a ++ createsOf b := by
  simp [createsOf, List.filterMap_append]

theorem createsOf_opStep {ω : Type} (truthy : ω → Bool) (st : Chunker ω) (op : ω) :
    createsOf (opStep truthy st op).2 = [] := by
  rw [opStep]
  by_cases h : truthy op
  · simp only [if_pos h]
    by_cases h2 : 0 < st.inBatch ∧ st.inBatch % batch_size = 0
    · simp [if_pos h2, createsOf]
    · simp [if_neg h2, createsOf]
  · simp [if_neg h, createsOf]

theorem createsOf_runOps {ω : Type} (truthy : ω → Bool) (ops : List ω) :
    ∀ st : Chunker ω, createsOf (runOps truthy st ops).2 = [] := by
  induction ops with
  | nil => intro st; rfl
  | cons op rest ih =>
    intro st
    simp only [runOps, createsOf_append, createsOf_opStep, ih, List.append_nil]

theorem createsOf_recStep {ρ ω : Type} (truthy : ω → Bool) (builder : ρ → List ω)
    (st : ExecSt ω) (rec : Int × ρ) :
    createsOf (recStep truthy builder st rec).2
      = if st.prev = some rec.1 then [] else [rec.1] := by
  rw [recStep]
  by_cases h : st.prev = some rec.1
  · simp only [if_pos h, createsOf_append, createsOf_runOps]
    simp [createsOf]
  · simp only [if_neg h, createsOf_append, createsOf_runOps]
    cases hp : st.prev <;> simp [createsOf, flushPre, hp]

theorem runRecords_creates {ρ ω : Type} (truthy : ω → Bool) (builder : ρ → List ω)
    (ops : List (Int × ρ)) :
    ∀ st : ExecSt ω,
      (createsOf (runRecords truthy builder st ops).2).length = runsFrom st.prev ops := by
  induction ops with
  | nil => intro st; rfl
  | cons rec rest ih =>
    intro st
    simp only [runRecords, createsOf_append, List.length_append, runsFrom,
      createsOf_recStep]
    have hih := ih (recStep truthy builder st rec).1
    rw [recStep_prev truthy builder st rec] at hih
    rw [hih]
    by_cases h : st.prev = some rec.1
    · simp [h]
    · simp [h]

/-- The trace of network calls of a dispatch run, for claims about call counts. -/
theorem dispatch_creates_runs {ρ ω : Type} (truthy : ω → Bool) (builder : ρ → List ω)
    (table : List (Int × ρ)) :
    (createsOf (dispatch truthy builder table)).length = runsFrom none table := by
  cases table with
  | nil => rfl
  | cons rec rest =>
    have hne : ((rec :: rest) : List (Int × ρ)).length ≠ 0 := by simp
    rw [dispatch, setup_operations]
    simp only [if_neg hne]
    rw [execute_operations, createsOf_append]
    have h2 : createsOf (if true then
        [NetEvent.upload (ω := ω)
          (runRecords truthy builder ⟨none, ⟨0, []⟩⟩ (rec :: rest)).1.chunk.buffer true]
        else []) = [] := by simp [createsOf]
    rw [h2, List.append_nil]
    exact runRecords_creates truthy builder (rec :: rest) ⟨none, ⟨0, []⟩⟩

theorem runsFrom_all_eq {ρ : Type} (a : Int) (l : List (Int × ρ))
    (h : ∀ p ∈ l, p.1 = a) : runsFrom (some a) l = 0 := by
  induction l with
  | nil => rfl
  | cons rec rest ih =>
    have ha : rec.1 = a := h rec (List.mem_cons_self rec rest)
    rw [runsFrom, ha, if_pos rfl, ih (fun p hp => h p (List.mem_cons_of_mem rec hp))]

theorem runsFrom_const {ρ : Type} (a : Int) (l : List (Int × ρ))
    (h : ∀ p ∈ l, p.1 = a) (hne : l ≠ []) : runsFrom none l = 1 := by
  cases l with
  | nil => exact absurd rfl hne
  | cons rec rest =>
    have ha : rec.1 = a := h rec (List.mem_cons_self rec rest)
    rw [runsFrom, ha, if_neg (by simp),
      runsFrom_all_eq a rest (fun p hp => h p (List.mem_cons_of_mem rec hp))]

/-- The `previous_client_id` value after streaming the given records. -/
def lastAccount {ρ : Type} : Option Int → List (Int × ρ) → Option Int
  | prev, [] => prev
  | _, rec :: rest => lastAccount (some rec.1) rest

theorem runsFrom_append {ρ : Type} (l1 l2 : List (Int × ρ)) :
    ∀ prev : Option Int,
      runsFrom prev (l1 ++ l2) = runsFrom prev l1 + runsFrom (lastAccount prev l1) l2 := by
  induction l1 with
  | nil => intro prev; simp [runsFrom, lastAccount]
  | cons rec rest ih =>
    intro prev
    simp only [List.cons_append, runsFrom, lastAccount, List.append_eq, ih (some rec.1)]
    omega

theorem lastAccount_const {ρ : Type} (a : Int) :
    ∀ (l : List (Int × ρ)) (prev : Option Int),
      (∀ p ∈ l, p.1 = a) → l ≠ [] → lastAccount prev l = some a := by
  intro l
  induction l with
  | nil => intro prev _ hne; exact absurd rfl hne
  | cons rec rest ih =>
    intro prev h _
    rw [lastAccount]
    by_cases hrest : rest = []
    · subst hrest
      rw [lastAccount]
      exact congrArg some (h rec (List.mem_cons_self rec []))
    · exact ih (some rec.1) (fun p hp => h p (List.mem_cons_of_mem rec hp)) hrest

/-- Claim C2 (amended): dispatch creates exactly one remote batch job per
maximal run of consecutive records with the same account id; hence an empty log
yields zero jobs, a log whose records all belong to one account yields exactly
one job however many chunks it spans, and a log with all of account A's records
before all of account B's yields exactly two jobs. (A log whose accounts
interleave creates one job per run, not one per account.) -/
theorem dispatch_jobs_per_run :
    (∀ (ρ ω : Type) (truthy : ω → Bool) (builder : ρ → List ω) (table : List (Int × ρ)),
        (createsOf (dispatch truthy builder table)).length = runsFrom none table)
    ∧ (∀ (ρ ω : Type) (truthy : ω → Bool) (builder : ρ → List ω),
        (createsOf (dispatch truthy builder ([] : List (Int × ρ)))).length = 0)
    ∧ (∀ (ρ ω : Type) (truthy : ω → Bool) (builder : ρ → List ω)
        (a : Int) (table : List (Int × ρ)),
        (∀ p ∈ table, p.1 = a) → table ≠ [] →
        (createsOf (dispatch truthy builder table)).length = 1)
    ∧ (∀ (ρ ω : Type) (truthy : ω → Bool) (builder : ρ → List ω)
        (a b : Int) (tA tB : List (Int × ρ)),
        a ≠ b → (∀ p ∈ tA, p.1 = a) → (∀ p ∈ tB, p.1 = b) → tA ≠ [] → tB ≠ [] →
        (createsOf (dispatch truthy builder (tA ++ tB))).length = 2) := by
  refine ⟨fun ρ ω t b table => dispatch_creates_runs t b table, ?_, ?_, ?_⟩
  · intro ρ ω t b
    rw [dispatch_creates_runs]
    rfl
  · intro ρ ω t b a table h hne
    rw [dispatch_creates_runs]
    exact runsFrom_const a table h hne
  · intro ρ ω t b a bb tA tB hab hA hB hneA hneB
    rw [dispatch_creates_runs, runsFrom_append, runsFrom_const a tA hA hneA,
      lastAccount_const a tA none hA hneA]
    have : runsFrom (some a) tB = 1 := by
      cases tB with
      | nil => exact absurd rfl hneB
      | cons rec rest =>
        have hb : rec.1 = bb := hB rec (List.mem_cons_self rec rest)
        rw [runsFrom, hb, if_neg (by simp [hab]),
          runsFrom_all_eq bb rest (fun p hp => hB p (List.mem_cons_of_mem rec hp))]
    rw [this]

/-- Truthiness and builder used in concrete dispatcher scenarios. -/
def exTruthy : Unit → Bool := fun _ => true

/-- A builder producing one (truthy) wire operation per record. -/
def exBuilder : Unit → List Unit := fun _ => [()]

/-- Counterexample for claim C2 as stated: an interleaved log for two accounts
(records 1, 2, 1) makes dispatch create three jobs — one per run of consecutive
equal account ids — not one per account appearing in the log. -/
theorem dispatch_interleaved_three_jobs_cex :
    (createsOf (dispatch exTruthy exBuilder [(1, ()), (2, ()), (1, ())])).length = 3
    ∧ (accountsOf [((1 : Int), ()), (2, ()), (1, ())]).length = 2 := by
  exact ⟨rfl, rfl⟩

/-- Witness for C2 at concrete grouped logs. -/
theorem dispatch_jobs_per_run_witness :
    (createsOf (dispatch exTruthy exBuilder [(1, ()), (1, ())])).length = 1
    ∧ (createsOf (dispatch exTruthy exBuilder [(1, ()), (1, ()), (2, ())])).length = 2 :=
  ⟨dispatch_jobs_per_run.2.2.1 Unit Unit exTruthy exBuilder 1 [(1, ()), (1, ())]
      (by decide) (by decide),
   dispatch_jobs_per_run.2.2.2 Unit Unit exTruthy exBuilder 1 2
      [(1, ()), (1, ())] [(2, ())] (by decide) (by decide) (by decide)
      (by decide) (by decide)⟩

theorem opStep_falsy {ω : Type} (truthy : ω → Bool) (st : Chunker ω) (op : ω)
    (h : truthy op = false) : opStep truthy st op = (st, []) := by
  rw [opStep, if_neg (by rw [h]; exact Bool.false_ne_true)]

theorem opStep_truthy {ω : Type} (truthy : ω → Bool) (st : Chunker ω) (op : ω)
    (h : truthy op = true) :
    opStep truthy st op
      = if 0 < st.inBatch ∧ st.inBatch % batch_size = 0
        then (⟨st.inBatch + 1, [op]⟩, [NetEvent.upload st.buffer false])
        else (⟨st.inBatch + 1, st.buffer ++ [op]⟩, []) := by
  rw [opStep, if_pos h]

theorem runOps_filter {ω : Type} (truthy : ω → Bool) (ops : List ω) :
    ∀ st : Chunker ω, runOps truthy st ops = runOps truthy st (ops.filter truthy) := by
  induction ops with
  | nil => intro st; rfl
  | cons op rest ih =>
    intro st
    by_cases h : truthy op = true
    · rw [List.filter_cons_of_pos h, runOps, runOps, ← ih (opStep truthy st op).1]
    · rw [List.filter_cons_of_neg (by simp [h]), runOps,
        opStep_falsy truthy st op (by simpa using h), ← ih st]
      simp

theorem recStep_filter {ρ ω : Type} (truthy : ω → Bool) (builder : ρ → List ω)
    (st : ExecSt ω) (rec : Int × ρ) :
    recStep truthy builder st rec
      = recStep truthy (fun r => (builder r).filter truthy) st rec := by
  rw [recStep, recStep]
  by_cases h : st.prev = some rec.1
  · simp only [if_pos h]
    rw [← runOps_filter]
  · simp only [if_neg h]
    rw [← runOps_filter]

/-- Claim C3, part (a): falsy wire operations are skipped without affecting any
state, so a run only depends on the truthy-filtered builder output. -/
theorem runRecords_filter {ρ ω : Type} (truthy : ω → Bool) (builder : ρ → List ω)
    (ops : List (Int × ρ)) :
    ∀ st : ExecSt ω,
      runRecords truthy builder st ops
        = runRecords truthy (fun r => (builder r).filter truthy) st ops := by
  induction ops with
  | nil => intro st; rfl
  | cons rec rest ih =>
    intro st
    rw [runRecords, runRecords, ← recStep_filter, ← ih (recStep truthy builder st rec).1]

theorem uploadFlags_append {ω : Type} (a b : List (NetEvent ω)) :
    uploadFlags (a ++ b) = uploadFlags a ++ uploadFlags b := by
  simp [uploadFlags, List.filterMap_append]

theorem runRecords_same_client_flags {ρ ω : Type} (truthy : ω → Bool)
    (builder : ρ → List ω) (c : Int) (rest : List (Int × ρ)) :
    ∀ st : ExecSt ω,
      st.prev = some c → 1 ≤ st.chunk.inBatch →
      (∀ p ∈ rest, p.1 = c) →
      (∀ p ∈ rest, (builder p.2).length = 1 ∧ ∀ w ∈ builder p.2, truthy w = true) →
      (uploadFlags (runRecords truthy builder st rest).2).length
          + (st.chunk.inBatch - 1) / batch_size
        = (st.chunk.inBatch + rest.length - 1) / batch_size
      ∧ (∀ b ∈ uploadFlags (runRecords truthy builder st rest).2, b = false)
      ∧ (runRecords truthy builder st rest).1.chunk.inBatch
          = st.chunk.inBatch + rest.length := by
  induction rest with
  | nil =>
    intro st _ _ _ _
    refine ⟨by simp [runRecords, uploadFlags], by simp [runRecords, uploadFlags], by
      simp [runRecords]⟩
  | cons p rest' ih =>
    intro st hprev hk hc hb
    have hpc : p.1 = c := hc p (List.mem_cons_self p rest')
    obtain ⟨hb1, hbt⟩ := hb p (List.mem_cons_self p rest')
    obtain ⟨w, hw⟩ := List.length_eq_one.mp hb1
    have htw : truthy w = true := hbt w (by rw [hw]; exact List.mem_cons_self w [])
    have hcond : st.prev = some p.1 := by rw [hpc]; exact hprev
    have hrec : recStep truthy builder st p
        = (⟨some c, (opStep truthy st.chunk w).1⟩, (opStep truthy st.chunk w).2) := by
      simp only [recStep, if_pos hcond, hw, runOps]
      simp [hprev]
    have hstep := opStep_truthy truthy st.chunk w htw
    by_cases hdvd : st.chunk.inBatch % batch_size = 0
    · rw [if_pos ⟨hk, hdvd⟩] at hstep
      rw [hstep] at hrec
      dsimp only at hrec
      have hih := ih ⟨some c, ⟨st.chunk.inBatch + 1, [w]⟩⟩ rfl (by simp)
        (fun q hq => hc q (List.mem_cons_of_mem p hq))
        (fun q hq => hb q (List.mem_cons_of_mem p hq))
      dsimp only at hih
      obtain ⟨hlen, hfalse, hbatch⟩ := hih
      refine ⟨?_, ?_, ?_⟩
      · simp only [runRecords, hrec, uploadFlags_append, List.length_append,
          List.length_cons]
        have hflag : (uploadFlags [NetEvent.upload (ω := ω) st.chunk.buffer false]).length
            = 1 := rfl
        rw [hflag]
        simp only [batch_size] at hlen hdvd ⊢
        omega
      · intro b hbmem
        simp only [runRecords, hrec, uploadFlags_append, List.mem_append] at hbmem
        rcases hbmem with hbmem | hbmem
        · simpa [uploadFlags] using hbmem
        · exact hfalse b hbmem
      · simp only [runRecords, hrec, List.length_cons]
        rw [hbatch]
        omega
    · rw [if_neg (fun hcon => hdvd hcon.2)] at hstep
      rw [hstep] at hrec
      dsimp only at hrec
      have hih := ih ⟨some c, ⟨st.chunk.inBatch + 1, st.chunk.buffer ++ [w]⟩⟩ rfl (by simp)
        (fun q hq => hc q (List.mem_cons_of_mem p hq))
        (fun q hq => hb q (List.mem_cons_of_mem p hq))
      dsimp only at hih
      obtain ⟨hlen, hfalse, hbatch⟩ := hih
      refine ⟨?_, ?_, ?_⟩
      · simp only [runRecords, hrec, uploadFlags_append, List.length_append,
          List.length_cons]
        have hflag : (uploadFlags (ω := ω) []).length = 0 := rfl
        rw [hflag]
        simp only [batch_size] at hlen hdvd ⊢
        omega
      · intro b hbmem
        simp only [runRecords, hrec, uploadFlags_append, List.mem_append] at hbmem
        rcases hbmem with hbmem | hbmem
        · simp [uploadFlags] at hbmem
        · exact hfalse b hbmem
      · simp only [runRecords, hrec, List.length_cons]
        rw [hbatch]
        omega

/-- Claim C3: (a) builder results that are falsy (`None` or empty) are skipped
without affecting chunk counters or the trace, so a run equals the run on the
truthy-filtered builder; (b) for a non-empty single-account log whose builder
yields exactly one truthy wire operation per record, dispatch performs exactly
`ceil(N / 5000)` upload calls — `(N - 1) / 5000` non-final ones and a final
one. -/
theorem execute_operations_chunking :
    (∀ (ρ ω : Type) (truthy : ω → Bool) (builder : ρ → List ω) (hasBjs : Bool)
        (table : List (Int × ρ)),
        execute_operations truthy builder hasBjs table
          = execute_operations truthy (fun r => (builder r).filter truthy) hasBjs table)
    ∧ (∀ (ρ ω : Type) (truthy : ω → Bool) (builder : ρ → List ω) (c : Int)
        (table : List (Int × ρ)),
        table ≠ [] → (∀ p ∈ table, p.1 = c) →
        (∀ p ∈ table, (builder p.2).length = 1 ∧ ∀ w ∈ builder p.2, truthy w = true) →
        uploadFlags (dispatch truthy builder table)
            = List.replicate ((table.length - 1) / batch_size) false ++ [true]
          ∧ (uploadFlags (dispatch truthy builder table)).length
            = (table.length + 4999) / 5000) := by
  constructor
  · intro ρ ω truthy builder hasBjs table
    rw [execute_operations, execute_operations, runRecords_filter]
  · intro ρ ω truthy builder c table hne hc hb
    cases table with
    | nil => exact absurd rfl hne
    | cons first rest =>
      have hfc : first.1 = c := hc first (List.mem_cons_self first rest)
      obtain ⟨hb1, hbt⟩ := hb first (List.mem_cons_self first rest)
      obtain ⟨w1, hw1⟩ := List.length_eq_one.mp hb1
      have htw1 : truthy w1 = true := hbt w1 (by rw [hw1]; exact List.mem_cons_self w1 [])
      have hcond0 : ¬((⟨none, ⟨0, []⟩⟩ : ExecSt ω).prev = some first.1) := by simp
      have hrec0 : recStep truthy builder ⟨none, ⟨0, []⟩⟩ first
          = (⟨some c, ⟨1, [w1]⟩⟩, [NetEvent.createJob c]) := by
        simp only [recStep, if_neg hcond0, hw1, runOps, opStep, htw1]
        simp [hfc, flushPre]
      have hmain := runRecords_same_client_flags truthy builder c rest
        ⟨some c, ⟨1, [w1]⟩⟩ rfl (by simp)
        (fun q hq => hc q (List.mem_cons_of_mem first hq))
        (fun q hq => hb q (List.mem_cons_of_mem first hq))
      dsimp only at hmain
      obtain ⟨hlen, hfalse, _⟩ := hmain
      have hlen2 : (uploadFlags
          (runRecords truthy builder ⟨some c, ⟨1, [w1]⟩⟩ rest).2).length
          = (((first :: rest).length : Nat) - 1) / batch_size := by
        simp only [List.length_cons, batch_size] at hlen ⊢
        omega
      have hrepl : uploadFlags (runRecords truthy builder ⟨some c, ⟨1, [w1]⟩⟩ rest).2
          = List.replicate (((first :: rest).length - 1) / batch_size) false :=
        List.eq_replicate_iff.mpr ⟨hlen2, hfalse⟩
      have hnz : ((first :: rest) : List (Int × ρ)).length ≠ 0 := by simp
      have hdisp : dispatch truthy builder (first :: rest)
          = [NetEvent.createJob c]
            ++ (runRecords truthy builder ⟨some c, ⟨1, [w1]⟩⟩ rest).2
            ++ [NetEvent.upload
                (runRecords truthy builder ⟨some c, ⟨1, [w1]⟩⟩ rest).1.chunk.buffer true] := by
        rw [dispatch, setup_operations]
        simp only [if_neg hnz, execute_operations, runRecords, hrec0]
        simp
      constructor
      · rw [hdisp, uploadFlags_append, uploadFlags_append, hrepl]
        have h1 : uploadFlags [NetEvent.createJob (ω := ω) c] = [] := rfl
        have h2 : uploadFlags [NetEvent.upload
            (runRecords truthy builder ⟨some c, ⟨1, [w1]⟩⟩ rest).1.chunk.buffer true]
            = [true] := rfl
        rw [h1, h2]
        simp
      · rw [hdisp, uploadFlags_append, uploadFlags_append, hrepl]
        have h1 : uploadFlags [NetEvent.createJob (ω := ω) c] = [] := rfl
        have h2 : uploadFlags [NetEvent.upload
            (runRecords truthy builder ⟨some c, ⟨1, [w1]⟩⟩ rest).1.chunk.buffer true]
            = [true] := rfl
        rw [h1, h2]
        simp only [List.length_append, List.length_replicate, List.length_cons,
          List.length_nil, batch_size]
        omega

/-- Witness for C3 at a concrete three-record single-account log:
`ceil(3/5000) = 1` upload, the final one. -/
theorem execute_operations_chunking_witness :
    uploadFlags (dispatch exTruthy exBuilder [(5, ()), (5, ()), (5, ())])
      = List.replicate ((([(5, ()), (5, ()), (5, ())] : List (Int × Unit)).length - 1)
          / batch_size) false ++ [true] :=
  (execute_operations_chunking.2 Unit Unit exTruthy exBuilder 5
    [(5, ()), (5, ()), (5, ())] (by decide) (by decide) (by decide)).1

/-- A log written as account groups, flattened back into the record stream. -/
def ungroup {ρ : Type} (groups : List (Int × List ρ)) : List (Int × ρ) :=
  groups.flatMap (fun g => g.2.map (fun r => (g.1, r)))

/-- The per-account segment of the dispatch trace: one job creation, the
non-final chunk uploads of the account's records in order, and the final
chunk upload. -/
def accountSegment {ρ ω : Type} (truthy : ω → Bool) (builder : ρ → List ω)
    (g : Int × List ρ) : List (NetEvent ω) :=
  NetEvent.createJob g.1
    :: (runOps truthy ⟨0, []⟩ (g.2.flatMap builder)).2
    ++ [NetEvent.upload (runOps truthy ⟨0, []⟩ (g.2.flatMap builder)).1.buffer true]

theorem runRecords_block {ρ ω : Type} (truthy : ω → Bool) (builder : ρ → List ω)
    (c : Int) (recs : List ρ) :
    ∀ st : ExecSt ω, st.prev = some c →
      runRecords truthy builder st (recs.map (fun r => (c, r)))
        = (⟨some c, (runOps truthy st.chunk (recs.flatMap builder)).1⟩,
           (runOps truthy st.chunk (recs.flatMap builder)).2) := by
  induction recs with
  | nil =>
    intro st hprev
    obtain ⟨prev, chunk⟩ := st
    dsimp only at hprev
    subst hprev
    rfl
  | cons r recs' ih =>
    intro st hprev
    have hcond : st.prev = some ((c, r) : Int × ρ).1 := hprev
    have hrec : recStep truthy builder st (c, r)
        = (⟨some c, (runOps truthy st.chunk (builder r)).1⟩,
           (runOps truthy st.chunk (builder r)).2) := by
      simp only [recStep, if_pos hcond]
      simp [hprev]
    simp only [List.map_cons, runRecords, hrec]
    rw [ih ⟨some c, (runOps truthy st.chunk (builder r)).1⟩ rfl]
    rw [List.flatMap_cons, runOps_append truthy (builder r) (recs'.flatMap builder) st.chunk]

theorem runRecords_block_switch {ρ ω : Type} (truthy : ω → Bool) (builder : ρ → List ω)
    (c : Int) (r : ρ) (recs' : List ρ) :
    ∀ st : ExecSt ω, st.prev ≠ some c →
      runRecords truthy builder st ((c, r) :: recs'.map (fun x => (c, x)))
        = (⟨some c, (runOps truthy ⟨0, []⟩ ((r :: recs').flatMap builder)).1⟩,
           (flushPre st ++ [NetEvent.createJob c])
             ++ (runOps truthy ⟨0, []⟩ ((r :: recs').flatMap builder)).2) := by
  intro st hne
  have hrec : recStep truthy builder st (c, r)
      = (⟨some c, (runOps truthy ⟨0, []⟩ (builder r)).1⟩,
         (flushPre st ++ [NetEvent.createJob c])
           ++ (runOps truthy ⟨0, []⟩ (builder r)).2) := by
    simp only [recStep, if_neg hne]
  simp only [runRecords, hrec]
  rw [runRecords_block truthy builder c recs'
    ⟨some c, (runOps truthy ⟨0, []⟩ (builder r)).1⟩ rfl]
  rw [List.flatMap_cons, runOps_append truthy (builder r) (recs'.flatMap builder) ⟨0, []⟩]
  simp [List.append_assoc]

theorem flushPre_some {ω : Type} (st : ExecSt ω) (c : Int) (h : st.prev = some c) :
    flushPre st = [NetEvent.upload st.chunk.buffer true] := by
  rw [flushPre, h]

theorem runRecords_groups {ρ ω : Type} (truthy : ω → Bool) (builder : ρ → List ω) :
    ∀ (gs : List (Int × List ρ)) (st : ExecSt ω) (c0 : Int),
      st.prev = some c0 →
      (∀ g ∈ gs, g.2 ≠ []) →
      List.Chain' (fun a b : Int × List ρ => a.1 ≠ b.1) gs →
      (∀ g0, gs.head? = some g0 → g0.1 ≠ c0) →
      (runRecords truthy builder st (ungroup gs)).2
          ++ [NetEvent.upload (runRecords truthy builder st (ungroup gs)).1.chunk.buffer true]
        = NetEvent.upload st.chunk.buffer true
            :: (gs.map (accountSegment truthy builder)).flatten := by
  intro gs
  induction gs with
  | nil =>
    intro st c0 hprev _ _ _
    simp [ungroup, runRecords, flushPre_some st c0 hprev]
  | cons g gs' ih =>
    intro st c0 hprev hgs hchain hhead
    obtain ⟨c, recs⟩ := g
    have hrecs : recs ≠ [] := hgs (c, recs) (List.mem_cons_self _ _)
    obtain ⟨r, recs₀, hr⟩ : ∃ x xs, recs = x :: xs := by
      cases recs with
      | nil => exact absurd rfl hrecs
      | cons x xs => exact ⟨x, xs, rfl⟩
    subst hr
    have hcc0 : c ≠ c0 := hhead (c, r :: recs₀) rfl
    have hne : st.prev ≠ some c := by
      rw [hprev]
      intro hcon
      exact hcc0 (Option.some.inj hcon).symm
    have hung : ungroup ((c, r :: recs₀) :: gs')
        = ((c, r) :: recs₀.map (fun x => (c, x))) ++ ungroup gs' := by
      simp [ungroup, List.flatMap_cons]
    rw [hung, runRecords_append]
    rw [runRecords_block_switch truthy builder c r recs₀ st hne]
    have hih := ih ⟨some c, (runOps truthy ⟨0, []⟩ ((r :: recs₀).flatMap builder)).1⟩ c rfl
      (fun g hg => hgs g (List.mem_cons_of_mem _ hg))
      (List.Chain'.tail hchain)
      (by
        intro g0 hg0
        cases gs' with
        | nil => simp at hg0
        | cons g2 gs'' =>
          have h12 : ((c, r :: recs₀) : Int × List ρ).1 ≠ g2.1 :=
            (List.chain'_cons.mp hchain).1
          simp only [List.head?_cons, Option.some.injEq] at hg0
          rw [← hg0]
          exact fun hcon => h12 hcon.symm)
    dsimp only at hih ⊢
    rw [List.append_assoc, hih]
    rw [flushPre_some st c0 hprev]
    simp [accountSegment, List.append_assoc]

theorem uploadedOps_append {ω : Type} (a b : List (NetEvent ω)) :
    uploadedOps (a ++ b) = uploadedOps a ++ uploadedOps b := by
  simp [uploadedOps]

theorem uploadedOps_runOps {ω : Type} (truthy : ω → Bool) (ops : List ω) :
    ∀ st : Chunker ω,
      uploadedOps (runOps truthy st ops).2 ++ (runOps truthy st ops).1.buffer
        = st.buffer ++ ops.filter truthy := by
  induction ops with
  | nil => intro st; simp [runOps, uploadedOps]
  | cons op rest ih =>
    intro st
    by_cases ht : truthy op = true
    · have hstep := opStep_truthy truthy st op ht
      by_cases hcond : 0 < st.inBatch ∧ st.inBatch % batch_size = 0
      · rw [if_pos hcond] at hstep
        simp only [runOps, hstep, uploadedOps_append]
        have h1 : uploadedOps [NetEvent.upload (ω := ω) st.buffer false] = st.buffer := by
          simp [uploadedOps]
        rw [h1]
        have h2 := ih ⟨st.inBatch + 1, [op]⟩
        dsimp only at h2
        rw [List.filter_cons_of_pos ht, List.append_assoc, h2]
        simp
      · rw [if_neg hcond] at hstep
        simp only [runOps, hstep, uploadedOps_append]
        have h1 : uploadedOps (ω := ω) [] = [] := rfl
        rw [h1]
        have h2 := ih ⟨st.inBatch + 1, st.buffer ++ [op]⟩
        dsimp only at h2
        rw [List.filter_cons_of_pos ht, List.nil_append, h2]
        simp
    · have hstep := opStep_falsy truthy st op (by simpa using ht)
      simp only [runOps, hstep, uploadedOps_append]
      have h1 : uploadedOps (ω := ω) [] = [] := rfl
      rw [h1, List.filter_cons_of_neg (by simpa using ht), List.nil_append]
      exact ih st

/-- Claim C6 (amended): for a log in which each account's records are
contiguous (written as groups of distinct accounts, each non-empty), the
dispatch trace is exactly the concatenation, in stream order, of per-account
segments — job creation, that account's chunk uploads, final upload — so the
previous account's final upload precedes the next account's job creation and
uploads; and within a segment the uploaded operations are exactly the
account's truthy built operations in record order. (For interleaved logs the
calls decompose per run of consecutive equal accounts, not per account.) -/
theorem dispatch_grouped_trace :
    (∀ (ρ ω : Type) (truthy : ω → Bool) (builder : ρ → List ω)
        (gs : List (Int × List ρ)),
        gs ≠ [] → (∀ g ∈ gs, g.2 ≠ []) →
        (gs.map Prod.fst).Pairwise (fun a b => a ≠ b) →
        dispatch truthy builder (ungroup gs)
          = (gs.map (accountSegment truthy builder)).flatten)
    ∧ (∀ (ρ ω : Type) (truthy : ω → Bool) (builder : ρ → List ω)
        (c : Int) (recs : List ρ),
        uploadedOps (accountSegment truthy builder (c, recs))
          = (recs.flatMap builder).filter truthy) := by
  constructor
  · intro ρ ω truthy builder gs hne hgs hpw
    have hchain : List.Chain' (fun a b : Int × List ρ => a.1 ≠ b.1) gs :=
      List.Pairwise.chain' (List.pairwise_map.mp hpw)
    cases gs with
    | nil => exact absurd rfl hne
    | cons g gs' =>
      obtain ⟨c, recs⟩ := g
      have hrecs : recs ≠ [] := hgs (c, recs) (List.mem_cons_self _ _)
      obtain ⟨r, recs₀, hr⟩ : ∃ x xs, recs = x :: xs := by
        cases recs with
        | nil => exact absurd rfl hrecs
        | cons x xs => exact ⟨x, xs, rfl⟩
      subst hr
      have hung : ungroup ((c, r :: recs₀) :: gs')
          = ((c, r) :: recs₀.map (fun x => (c, x))) ++ ungroup gs' := by
        simp [ungroup, List.flatMap_cons]
      have hlen : (ungroup ((c, r :: recs₀) :: gs')).length ≠ 0 := by
        rw [hung]
        simp
      rw [dispatch, setup_operations, if_neg hlen]
      rw [execute_operations, hung, runRecords_append]
      have hfirst := runRecords_block_switch truthy builder c r recs₀
        ⟨none, ⟨0, []⟩⟩ (by simp)
      rw [hfirst]
      have hih := runRecords_groups truthy builder gs'
        ⟨some c, (runOps truthy ⟨0, []⟩ ((r :: recs₀).flatMap builder)).1⟩ c rfl
        (fun g hg => hgs g (List.mem_cons_of_mem _ hg))
        (List.Chain'.tail hchain)
        (by
          intro g0 hg0
          cases gs' with
          | nil => simp at hg0
          | cons g2 gs'' =>
            have h12 : ((c, r :: recs₀) : Int × List ρ).1 ≠ g2.1 :=
              (List.chain'_cons.mp hchain).1
            simp only [List.head?_cons, Option.some.injEq] at hg0
            rw [← hg0]
            exact fun hcon => h12 hcon.symm)
      dsimp only at hih ⊢
      rw [if_pos rfl, List.append_assoc, hih]
      have hfp : flushPre (⟨none, ⟨0, []⟩⟩ : ExecSt ω) = [] := rfl
      rw [hfp]
      simp [accountSegment, List.append_assoc]
  · intro ρ ω truthy builder c recs
    have h := uploadedOps_runOps truthy (recs.flatMap builder) ⟨0, []⟩
    dsimp only at h
    rw [List.nil_append] at h
    rw [accountSegment]
    have hsplit : uploadedOps (ω := ω)
        (NetEvent.createJob c
          :: (runOps truthy ⟨0, []⟩ (recs.flatMap builder)).2
          ++ [NetEvent.upload (runOps truthy ⟨0, []⟩ (recs.flatMap builder)).1.buffer true])
        = uploadedOps (runOps truthy ⟨0, []⟩ (recs.flatMap builder)).2
            ++ (runOps truthy ⟨0, []⟩ (recs.flatMap builder)).1.buffer := by
      simp [uploadedOps]
    rw [hsplit, h]

/-- Counterexample for claim C6 as stated: on the interleaved log
`3, 4, 3, 3` the job-creation sequence is `[3, 4, 3]` — account 3's network
calls are split around account 4's, so the call sequence is not fully ordered
by account (and there is more than one job for account 3). -/
theorem dispatch_interleaved_order_cex :
    createsOf (dispatch exTruthy exBuilder [(3, ()), (4, ()), (3, ()), (3, ())])
      = [3, 4, 3]
    ∧ accountsOf [((3 : Int), ()), (4, ()), (3, ()), (3, ())] = [3, 4] :=
  ⟨rfl, rfl⟩

/-- Witness for C6 at a concrete grouped log of two accounts. -/
theorem dispatch_grouped_trace_witness :
    dispatch exTruthy exBuilder (ungroup [(1, [(), ()]), (2, [()])])
      = ([(1, [(), ()]), (2, [()])].map (accountSegment exTruthy exBuilder)).flatten :=
  dispatch_grouped_trace.1 Unit Unit exTruthy exBuilder [(1, [(), ()]), (2, [()])]
    (by decide) (by decide) (by decide)

end AdwordsClient
